import Mathlib

/-!
# Verification of microsat-cpp's DIMACS CNF reader, writer and CLI driver

Shallow embedding of `src/cnfreader.h` (class `CnfReader`), `src/cnfwriter.h`
(class `CnfWriter`) and `src/examples/cnfreader.cpp` (the CLI driver `main`).
Character streams are `List Char`; the C++ `istream` extraction operators are
modelled by explicit lexers whose stream-state outcomes (`good`, `eof`, `fail`)
are tracked where the source consults them.

The MicroSAT engine itself (`microsat-cpp.h`) is not part of the sources under
verification; the solver operations the wrappers call (`add`, `solve`, `query`)
are modelled from the specification's contract (see the `MicroSAT` section).
-/

namespace MicroSatCpp

/-- Whitespace characters recognised by `std::istream` formatted extraction
(`operator>>` skips them) and by `std::isspace` in the default locale. -/
def isWs (c : Char) : Bool :=
  c = ' ' || c = '\n' || c = '\t' || c = '\r' || c = '\x0b' || c = '\x0c'

/-- Decimal digit accumulation: the loop inside `num_get` that consumes
leading digits of the stream, extending the accumulator `acc` by
`acc * 10 + digit` per character, and stops at the first non-digit. -/
def readNat : List Char → Nat → Nat × List Char
  | [], acc => (acc, [])
  | c :: cs, acc =>
    if c.isDigit then readNat cs (acc * 10 + (c.toNat - 48)) else (acc, c :: cs)

/-- Decimal rendering of a natural number, as produced by
`operator<<(std::ostream&, int)` for nonnegative values. -/
def printNat (n : Nat) : List Char :=
  if h : n < 10 then [Char.ofNat (48 + n)]
  else printNat (n / 10) ++ [Char.ofNat (48 + n % 10)]
  decreasing_by exact Nat.div_lt_self (by omega) (by omega)

/-- Decimal rendering of a signed integer, as produced by
`operator<<(std::ostream&, int)`. -/
def printInt (n : Int) : List Char :=
  if n < 0 then '-' :: printNat (-n).toNat else printNat n.toNat

theorem readNat_nil (acc : Nat) : readNat [] acc = (acc, []) := rfl

theorem readNat_cons_digit (c : Char) (cs : List Char) (acc : Nat)
    (h : c.isDigit = true) :
    readNat (c :: cs) acc = readNat cs (acc * 10 + (c.toNat - 48)) := by
  simp [readNat, h]

theorem readNat_cons_nondigit (c : Char) (cs : List Char) (acc : Nat)
    (h : c.isDigit = false) :
    readNat (c :: cs) acc = (acc, c :: cs) := by
  simp [readNat, h]

theorem char_ofNat_digit_isDigit (d : Nat) (h : d < 10) :
    (Char.ofNat (48 + d)).isDigit = true := by
  interval_cases d <;> decide

theorem char_ofNat_digit_toNat (d : Nat) (h : d < 10) :
    (Char.ofNat (48 + d)).toNat = 48 + d := by
  interval_cases d <;> decide

/-- Every character of `printNat n` is a decimal digit. -/
theorem printNat_all_digit (n : Nat) : ∀ c ∈ printNat n, c.isDigit = true := by
  induction n using Nat.strong_induction_on with
  | _ n ih =>
    intro c hc
    rw [printNat] at hc
    by_cases h : n < 10
    · simp [h] at hc
      subst hc
      exact char_ofNat_digit_isDigit n h
    · simp [h] at hc
      rcases hc with hc | hc
      · exact ih (n / 10) (Nat.div_lt_self (by omega) (by omega)) c hc
      · subst hc
        exact char_ofNat_digit_isDigit (n % 10) (Nat.mod_lt _ (by omega))

theorem printNat_ne_nil (n : Nat) : printNat n ≠ [] := by
  rw [printNat]
  by_cases h : n < 10 <;> simp [h]

/-- Reading back the decimal rendering of `n` continues the accumulator run:
the digits of `n` extend `acc` by `acc * 10 ^ (number of digits) + n`. -/
theorem readNat_printNat_append (n : Nat) :
    ∀ (rest : List Char) (acc : Nat),
      readNat (printNat n ++ rest) acc =
        readNat rest (acc * 10 ^ (printNat n).length + n) := by
  induction n using Nat.strong_induction_on with
  | _ n ih =>
    intro rest acc
    rw [printNat]
    by_cases h : n < 10
    · rw [dif_pos h]
      simp only [List.cons_append, List.nil_append, List.length_cons, List.length_nil]
      rw [readNat_cons_digit _ _ _ (char_ofNat_digit_isDigit n h),
        char_ofNat_digit_toNat n h]
      congr 1
      ring_nf
      omega
    · rw [dif_neg h]
      simp only [List.append_assoc, List.cons_append, List.nil_append,
        List.length_append, List.length_cons, List.length_nil]
      rw [ih (n / 10) (Nat.div_lt_self (by omega) (by omega)),
        readNat_cons_digit _ _ _ (char_ofNat_digit_isDigit (n % 10) (Nat.mod_lt _ (by omega))),
        char_ofNat_digit_toNat (n % 10) (Nat.mod_lt _ (by omega))]
      congr 1
      have : acc * 10 ^ ((printNat (n / 10)).length + 1) =
          acc * 10 ^ (printNat (n / 10)).length * 10 := by ring
      rw [this]
      omega

/-- Reading back `printNat n` followed by a non-digit boundary yields `n`
and stops exactly at the boundary. -/
theorem readNat_printNat (n : Nat) (rest : List Char)
    (h : ∀ c, rest.head? = some c → c.isDigit = false) :
    readNat (printNat n ++ rest) 0 = (n, rest) := by
  rw [readNat_printNat_append]
  cases rest with
  | nil => simp [readNat_nil]
  | cons c cs =>
    rw [readNat_cons_nondigit c cs _ (h c rfl)]
    simp

/-- `std::istream >> std::string`: skip whitespace, then collect characters up
to the next whitespace or end of input. At end of input the extraction fails
and (since C++11) leaves the string empty, which this model renders as `""`. -/
def extractToken (cs : List Char) : String × List Char :=
  let cs1 := cs.dropWhile isWs
  (String.mk (cs1.takeWhile (fun c => !isWs c)), cs1.dropWhile (fun c => !isWs c))

/-- `std::istream >> int` (`num_get`): skip whitespace, accept an optional
sign followed by decimal digits; `none` models `failbit` (end of input, or a
character that cannot start a number). The returned rest being `[]` models the
extraction that succeeded but hit end of input (`eofbit`, stream no longer
`good()`). Out-of-range values are not modelled; the streams proved about
carry only small literals. -/
def headIsDigit : List Char → Bool
  | [] => false
  | d :: _ => d.isDigit

def extractInt (cs : List Char) : Option (Int × List Char) :=
  match cs.dropWhile isWs with
  | [] => none
  | c :: rest =>
    if c = '-' then
      if headIsDigit rest then some (-((readNat rest 0).1 : Int), (readNat rest 0).2)
      else none
    else if c = '+' then
      if headIsDigit rest then some (((readNat rest 0).1 : Int), (readNat rest 0).2)
      else none
    else if c.isDigit then
      some (((readNat (c :: rest) 0).1 : Int), (readNat (c :: rest) 0).2)
    else none

/-- `std::istream >> unsigned int`: like `extractInt`, but a leading `-`
negates modulo `2^32` (`num_get` converts via `strtoull` and negates).
Out-of-range magnitudes are not modelled. -/
def extractUInt (cs : List Char) : Option (Nat × List Char) :=
  match cs.dropWhile isWs with
  | [] => none
  | c :: rest =>
    if c = '-' then
      if headIsDigit rest then
        some ((2 ^ 32 - (readNat rest 0).1 % 2 ^ 32) % 2 ^ 32, (readNat rest 0).2)
      else none
    else if c = '+' then
      if headIsDigit rest then some ((readNat rest 0).1, (readNat rest 0).2)
      else none
    else if c.isDigit then
      some ((readNat (c :: rest) 0).1, (readNat (c :: rest) 0).2)
    else none

theorem readNat_length_le (cs : List Char) (acc : Nat) :
    (readNat cs acc).2.length ≤ cs.length := by
  induction cs generalizing acc with
  | nil => simp [readNat]
  | cons c cs ih =>
    by_cases h : c.isDigit
    · rw [readNat_cons_digit c cs acc h]
      exact le_trans (ih _) (by simp)
    · rw [readNat_cons_nondigit c cs acc (by simpa using h)]

theorem dropWhile_length_le (p : Char → Bool) (l : List Char) :
    (l.dropWhile p).length ≤ l.length := by
  induction l with
  | nil => simp
  | cons c cs ih =>
    by_cases h : p c
    · rw [List.dropWhile_cons_of_pos h]
      simp only [List.length_cons]
      omega
    · rw [List.dropWhile_cons_of_neg (by simpa using h)]

theorem extractInt_length {cs : List Char} {n : Int} {r : List Char}
    (h : extractInt cs = some (n, r)) : r.length < cs.length := by
  unfold extractInt at h
  have hle := dropWhile_length_le isWs cs
  rcases hds : cs.dropWhile isWs with _ | ⟨c, rest⟩
  · rw [hds] at h; exact absurd h (by simp)
  · rw [hds] at h
    rw [hds] at hle
    dsimp only at h
    have hrest := readNat_length_le rest 0
    simp only [List.length_cons] at hle
    split_ifs at h with h1 h2 h3 h4 h5 <;> simp only [Option.some.injEq, Prod.mk.injEq] at h
    · rw [← h.2] at *; omega
    · rw [← h.2] at *; omega
    · rw [readNat_cons_digit c rest 0 h5] at h
      have := readNat_length_le rest (0 * 10 + (c.toNat - 48))
      rw [← h.2] at *; omega

/-- `std::getline(f, line)` after the first character was peeked: consume up
to and including the next newline (or through end of input). -/
def dropLine (cs : List Char) : List Char :=
  (cs.dropWhile (fun c => !(c = '\n'))).tail

theorem dropLine_length_le (cs : List Char) : (dropLine cs).length ≤ cs.length := by
  unfold dropLine
  have := dropWhile_length_le (fun c => !(c = '\n')) cs
  have := List.length_tail (cs.dropWhile (fun c => !(c = '\n')))
  omega

/-- The `CnfReader` constructor's comment-skipping loop
`while (f.good() && f.peek() == 'c') { std::string line; std::getline(f, line); }`:
it consumes whole lines for as long as the very next character is `c`
(`peek` at end of input returns EOF, which compares unequal to `'c'`). -/
def skipComments (cs : List Char) : List Char :=
  match cs with
  | [] => []
  | c :: rest => if c = 'c' then skipComments (dropLine rest) else c :: rest
  termination_by cs.length
  decreasing_by
    rename_i tl hcc
    have := dropLine_length_le tl
    simp only [List.length_cons]
    omega

/-- Outcome of the header extraction
`f >> headerId >> format >> m_nVars >> m_nClauses`. `good` records
`f.good()` afterwards: false when an extraction failed (`failbit`) or the
last number ran into end of input (`eofbit`). A failed `unsigned` extraction
leaves the member at its initialised value `0`, and once the stream has
failed the remaining extractions do nothing. -/
structure HeaderRead where
  headerId : String
  format : String
  nVars : Nat
  nClauses : Nat
  rest : List Char
  good : Bool
deriving Repr, DecidableEq

def readHeader (cs : List Char) : HeaderRead :=
  let (headerId, cs1) := extractToken cs
  let (format, cs2) := extractToken cs1
  match extractUInt cs2 with
  | none => ⟨headerId, format, 0, 0, cs2, false⟩
  | some (nV, cs3) =>
    match extractUInt cs3 with
    | none => ⟨headerId, format, nV, 0, cs3, false⟩
    | some (nC, cs4) => ⟨headerId, format, nV, nC, cs4, cs4 ≠ []⟩

/-- The inner literal loop of the constructor:
`while (f >> next) { if (next == 0) break; clause.push_back(next); }`.
Returns the literals collected into `clause`, the remaining stream, and
`f.good()` afterwards (false when extraction failed — `failbit`, possibly at
end of input — or when the terminating `0` was the last thing in the file,
`eofbit`; note that a literal whose digits end exactly at end of input is
still stored before the next extraction fails). -/
def readLits (cs : List Char) (clause : List Int) : List Int × List Char × Bool :=
  match h : extractInt cs with
  | none => (clause, cs, false)
  | some (next, rest) =>
    if next = 0 then (clause, rest, rest ≠ [])
    else readLits rest (clause ++ [next])
  termination_by cs.length
  decreasing_by
    have := extractInt_length h
    omega

theorem readLits_length_lt (cs : List Char) (clause : List Int) :
    ∀ c rest, readLits cs clause = (c, rest, true) → rest.length < cs.length := by
  induction cs, clause using readLits.induct with
  | case1 cs clause hnone =>
    intro c rest hr
    rw [readLits, hnone] at hr
    simp at hr
  | case2 cs clause rest0 hsome =>
    intro c rest hr
    rw [readLits, hsome] at hr
    simp only [if_pos] at hr
    have := extractInt_length hsome
    have h2 : rest = rest0 := by
      have := congrArg (fun t => t.2.1) hr
      simpa using this.symm
    rw [h2]
    omega
  | case3 cs clause next rest0 hsome hz ih =>
    intro c rest hr
    rw [readLits, hsome] at hr
    simp only [if_neg hz] at hr
    have h1 := extractInt_length hsome
    have := ih c rest hr
    omega

/-- The outer clause loop of the constructor, entered with `f.good()` true:
`while (f.good()) { read literals; m_solver->add(clause.data(), clause.size()); clause.clear(); }`.
Returns the list of `add` calls, each the `clause` vector contents at that
call — including a final empty one whenever the last extraction failure
happens with the stream still `good()` after the previous clause. -/
def clauseLoop (cs : List Char) : List (List Int) :=
  match h : readLits cs [] with
  | (clause, rest, good) =>
    if hg : good = true then clause :: clauseLoop rest else [clause]
  termination_by cs.length
  decreasing_by
    rw [hg] at h
    exact readLits_length_lt cs [] clause rest h

theorem skipComments_nil : skipComments [] = [] := by
  rw [skipComments]

theorem skipComments_comment (rest : List Char) :
    skipComments ('c' :: rest) = skipComments (dropLine rest) := by
  rw [skipComments]
  simp [dropLine]

theorem skipComments_other (c : Char) (rest : List Char) (h : c ≠ 'c') :
    skipComments (c :: rest) = c :: rest := by
  rw [skipComments]
  simp [h]

theorem readLits_none (cs : List Char) (clause : List Int)
    (h : extractInt cs = none) : readLits cs clause = (clause, cs, false) := by
  rw [readLits, h]

theorem readLits_zero (cs rest : List Char) (clause : List Int)
    (h : extractInt cs = some (0, rest)) :
    readLits cs clause = (clause, rest, decide (rest ≠ [])) := by
  rw [readLits, h]
  simp

theorem readLits_lit (cs rest : List Char) (clause : List Int) (next : Int)
    (h : extractInt cs = some (next, rest)) (hz : next ≠ 0) :
    readLits cs clause = readLits rest (clause ++ [next]) := by
  rw [readLits, h]
  simp [hz]

theorem clauseLoop_good (cs rest : List Char) (clause : List Int)
    (h : readLits cs [] = (clause, rest, true)) :
    clauseLoop cs = clause :: clauseLoop rest := by
  rw [clauseLoop, h]
  simp

theorem clauseLoop_stop (cs rest : List Char) (clause : List Int)
    (h : readLits cs [] = (clause, rest, false)) :
    clauseLoop cs = [clause] := by
  rw [clauseLoop, h]
  simp

/-! ### Fuelled mirrors of the loops

Structurally recursive copies of the loops above, used to evaluate them on
concrete inputs: each returns `none` when the fuel runs out, and agrees with
the loop whenever it returns `some`. -/

def skipCommentsFuel : Nat → List Char → Option (List Char)
  | 0, _ => none
  | _ + 1, [] => some []
  | fuel + 1, c :: rest =>
    if c = 'c' then skipCommentsFuel fuel (dropLine rest) else some (c :: rest)

theorem skipCommentsFuel_sound :
    ∀ (fuel : Nat) (cs r : List Char), skipCommentsFuel fuel cs = some r →
      skipComments cs = r := by
  intro fuel
  induction fuel with
  | zero => intro cs r h; exact absurd h (by simp [skipCommentsFuel])
  | succ n ih =>
    intro cs r h
    rcases cs with _ | ⟨c, rest⟩
    · simp [skipCommentsFuel] at h
      rw [skipComments_nil, h]
    · by_cases hc : c = 'c'
      · subst hc
        rw [skipComments_comment]
        simp only [skipCommentsFuel, if_pos] at h
        exact ih _ _ h
      · rw [skipComments_other c rest hc]
        simp only [skipCommentsFuel, if_neg hc] at h
        exact Option.some.inj h

def readLitsFuel : Nat → List Char → List Int → Option (List Int × List Char × Bool)
  | 0, _, _ => none
  | fuel + 1, cs, clause =>
    match extractInt cs with
    | none => some (clause, cs, false)
    | some (next, rest) =>
      if next = 0 then some (clause, rest, decide (rest ≠ []))
      else readLitsFuel fuel rest (clause ++ [next])

theorem readLitsFuel_sound :
    ∀ (fuel : Nat) (cs : List Char) (clause : List Int) r,
      readLitsFuel fuel cs clause = some r → readLits cs clause = r := by
  intro fuel
  induction fuel with
  | zero => intro cs clause r h; exact absurd h (by simp [readLitsFuel])
  | succ n ih =>
    intro cs clause r h
    rcases he : extractInt cs with _ | ⟨next, rest⟩
    · rw [readLits_none cs clause he]
      rw [readLitsFuel, he] at h
      simp at h
      exact h
    · by_cases hz : next = 0
      · subst hz
        rw [readLits_zero cs rest clause he]
        rw [readLitsFuel, he] at h
        simp at h
        simpa using h
      · rw [readLits_lit cs rest clause next he hz]
        rw [readLitsFuel, he] at h
        simp only [if_neg hz] at h
        exact ih _ _ _ h

def clauseLoopFuel : Nat → List Char → Option (List (List Int))
  | 0, _ => none
  | fuel + 1, cs =>
    match readLitsFuel (cs.length + 1) cs [] with
    | none => none
    | some (clause, rest, good) =>
      if good then (clauseLoopFuel fuel rest).map (fun t => clause :: t)
      else some [clause]

theorem clauseLoopFuel_sound :
    ∀ (fuel : Nat) (cs : List Char) r, clauseLoopFuel fuel cs = some r →
      clauseLoop cs = r := by
  intro fuel
  induction fuel with
  | zero => intro cs r h; exact absurd h (by simp [clauseLoopFuel])
  | succ n ih =>
    intro cs r h
    rw [clauseLoopFuel] at h
    rcases hr : readLitsFuel (cs.length + 1) cs [] with _ | ⟨clause, rest, good⟩
    · rw [hr] at h; exact absurd h (by simp)
    · rw [hr] at h
      have hread := readLitsFuel_sound _ _ _ _ hr
      rcases good with _ | _
      · simp only [if_neg] at h
        rw [clauseLoop_stop cs rest clause hread]
        simp at h
        exact h
      · simp only [if_pos] at h
        rcases ht : clauseLoopFuel n rest with _ | t
        · rw [ht] at h; exact absurd h (by simp)
        · rw [ht] at h
          simp at h
          rw [clauseLoop_good cs rest clause hread, ih _ _ ht, ← h]

/-! ## The solver, modelled from the spec

`microsat-cpp.h` is not among the sources under verification; only its
callers (`CnfReader`, the examples) and its API twin (`CnfWriter`) are.
The operations those wrappers invoke are modelled here from the
specification's contract for the solver. -/

/-- Truth of literal `l` under total assignment `a` (`a v` = value of
variable `v`): a positive literal holds iff its variable is true, a negative
literal iff its variable is false. -/
def satLit (a : Nat → Bool) (l : Int) : Bool :=
  if 0 < l then a l.toNat else !a (-l).toNat

/-- A clause is satisfied when some literal of it is true. -/
def satClause (a : Nat → Bool) (c : List Int) : Bool := c.any (satLit a)

/-- The assignment packed in the bits of `m`: variable `v` is true iff bit
`v - 1` of `m` is set. -/
def bitAssign (m : Nat) (v : Nat) : Bool := m.testBit (v - 1)

/-- Modelled from the spec: the MicroSAT engine (`microsat-cpp.h`) is missing
from the sources; per the spec it holds the declared variable count and the
problem clauses added so far. The arena (`mem_max` slots) and all search
structures are internal to `solve` and not observable through the wrapper
API, so they are not carried here. -/
structure MicroSAT where
  nVars : Nat
  clauses : List (List Int)
deriving Repr, DecidableEq

/-- Modelled from the spec: `new MicroSAT(m_nVars, mem_max)` — a fresh solver
with `N` variables and no clauses. Arena capacity only matters for
OUT_OF_MEMORY, which this model does not raise. -/
def MicroSAT.create (nVars : Nat) (mem_max : Int) : MicroSAT :=
  ⟨nVars, []⟩

/-- Modelled from the spec (§4.1): clause addition fails (returns `false`,
INVALID_INPUT) on an empty input — as in the API-compatible
`CnfWriter::add(const int*, unsigned)`, which returns `false` for
`in == 0 || size == 0` — or on a zero literal or a variable id beyond `N`;
a tautology is discarded with success; otherwise the clause is stored with
duplicate literals collapsed. -/
def MicroSAT.add (s : MicroSAT) (c : List Int) : Bool × MicroSAT :=
  if c = [] then (false, s)
  else if c.any (fun l => l = 0 || s.nVars < l.natAbs) then (false, s)
  else if c.any (fun l => decide ((-l) ∈ c)) then (true, s)
  else (true, { s with clauses := s.clauses ++ [c.dedup] })

/-- Modelled from the spec (§1, §4.5): `solve()` decides satisfiability of
the stored clauses over variables `1..N` and, when satisfiable, settles on a
total assignment satisfying all of them (which model the CDCL search returns
is implementation detail; exhaustive search realises the same contract). -/
def MicroSAT.solveModel (s : MicroSAT) : Option Nat :=
  (List.range (2 ^ s.nVars)).find? (fun m => s.clauses.all (satClause (bitAssign m)))

/-- Modelled from the spec: `solve() → bool`, `true` = SAT. -/
def MicroSAT.solve (s : MicroSAT) : Bool :=
  s.solveModel.isSome

/-- Modelled from the spec (§4.8): after SAT, `query(v)` is the model's value
for `v`; conservatively `false` otherwise. -/
def MicroSAT.query (s : MicroSAT) (v : Nat) : Bool :=
  match s.solveModel with
  | some m => bitAssign m v
  | none => false

/-! ## CnfReader (src/cnfreader.h) -/

/-- `1 << 20`, the default of the constructor's `mem_max` parameter. -/
def defaultMemMax : Int := 2 ^ 20

/-- The observable state a constructed `CnfReader` holds: the header counts
`m_nVars`/`m_nClauses`, the solver `m_solver` after all `add` calls, and
`m_satisfiable`, the result of the one `solve()` run by the constructor.
`addCalls` records the arguments of each `m_solver->add(clause.data(),
clause.size())` the constructor's clause loop performed, in order. -/
structure CnfReaderState where
  nVars : Nat
  nClauses : Nat
  addCalls : List (List Int)
  solver : MicroSAT
  satisfiable : Bool
deriving Repr, DecidableEq

/-- The `CnfReader` constructor on the contents of an opened file: skip
leading comment lines, extract the header, throw on a bad marker or zero
counts, then run the clause loop (only if the stream is still `good()`),
feed every collected clause to the solver and run `solve()` once. -/
def cnfReaderParse (cs : List Char) (mem_max : Int) : Except String CnfReaderState :=
  let h := readHeader (skipComments cs)
  if h.headerId ≠ "p" ∨ h.format ≠ "cnf" then .error "invalid file marker"
  else if h.nVars = 0 ∨ h.nClauses = 0 then .error "invalid number of elements"
  else
    let calls := if h.good then clauseLoop h.rest else []
    let solver := calls.foldl (fun s c => (s.add c).2) (MicroSAT.create h.nVars mem_max)
    .ok ⟨h.nVars, h.nClauses, calls, solver, solver.solve⟩

/-- The `CnfReader` constructor including the file open: `none` models a file
that cannot be opened (`if (!f) throw "file not found";`). -/
def cnfReaderRun (file : Option (List Char))
    (mem_max : Int := defaultMemMax) : Except String CnfReaderState :=
  match file with
  | none => .error "file not found"
  | some cs => cnfReaderParse cs mem_max

instance : DecidableEq (Except String CnfReaderState)
  | .error a, .error b => decidable_of_iff (a = b) (by simp)
  | .error _, .ok _ => isFalse (by simp)
  | .ok _, .error _ => isFalse (by simp)
  | .ok a, .ok b => decidable_of_iff (a = b) (by simp)

/-- Fuelled mirror of `cnfReaderParse`, for evaluating concrete inputs. -/
def cnfReaderParseFuel (cs : List Char) (mem_max : Int) :
    Option (Except String CnfReaderState) :=
  match skipCommentsFuel (cs.length + 1) cs with
  | none => none
  | some cs' =>
    let h := readHeader cs'
    if h.headerId ≠ "p" ∨ h.format ≠ "cnf" then some (.error "invalid file marker")
    else if h.nVars = 0 ∨ h.nClauses = 0 then some (.error "invalid number of elements")
    else
      match (if h.good then clauseLoopFuel (h.rest.length + 1) h.rest else some []) with
      | none => none
      | some calls =>
        let solver := calls.foldl (fun s c => (s.add c).2) (MicroSAT.create h.nVars mem_max)
        some (.ok ⟨h.nVars, h.nClauses, calls, solver, solver.solve⟩)

theorem cnfReaderParseFuel_sound (cs : List Char) (mem_max : Int)
    (r : Except String CnfReaderState) (h : cnfReaderParseFuel cs mem_max = some r) :
    cnfReaderParse cs mem_max = r := by
  rw [cnfReaderParseFuel] at h
  rcases hs : skipCommentsFuel (cs.length + 1) cs with _ | cs'
  · rw [hs] at h; exact absurd h (by simp)
  · rw [hs] at h
    dsimp only at h
    have hskip := skipCommentsFuel_sound _ _ _ hs
    rw [cnfReaderParse, hskip]
    dsimp only
    by_cases h1 : (readHeader cs').headerId ≠ "p" ∨ (readHeader cs').format ≠ "cnf"
    · rw [if_pos h1]
      rw [if_pos h1] at h
      simp at h
      exact h
    · rw [if_neg h1]
      rw [if_neg h1] at h
      by_cases h2 : (readHeader cs').nVars = 0 ∨ (readHeader cs').nClauses = 0
      · rw [if_pos h2]
        rw [if_pos h2] at h
        simp at h
        exact h
      · rw [if_neg h2]
        rw [if_neg h2] at h
        by_cases hg : (readHeader cs').good
        · rw [if_pos hg] at h ⊢
          rcases hc : clauseLoopFuel ((readHeader cs').rest.length + 1)
              (readHeader cs').rest with _ | calls
          · rw [hc] at h; exact absurd h (by simp)
          · rw [hc] at h
            rw [clauseLoopFuel_sound _ _ _ hc]
            simp at h
            exact h
        · rw [if_neg hg] at h ⊢
          simp at h
          exact h

/-- `bool solve() const { return m_satisfiable; }` — a `const` member: it
returns the recorded result and leaves the object as it is. -/
def CnfReaderState.solveCall (r : CnfReaderState) : Bool × CnfReaderState :=
  (r.satisfiable, r)

/-- `bool query(unsigned int var) const` — delegates to the solver's
recorded model (`m_solver` is non-null on every constructed reader). -/
def CnfReaderState.query (r : CnfReaderState) (var : Nat) : Bool :=
  r.solver.query var

/-- The clauses the parse loop yielded: the `add` calls that carried a
clause. An `add` with size `0` is a rejected no-op (it returns `false` and
stores nothing, per the API contract `CnfWriter::add` exhibits), not a
clause of the problem. -/
def CnfReaderState.parsedClauses (r : CnfReaderState) : List (List Int) :=
  r.addCalls.filter (fun c => c ≠ [])

/-! ## CnfWriter (src/cnfwriter.h) -/

/-- `CnfWriter`: `m_nVars` and the clause list `m_clauses`. -/
structure CnfWriter where
  nVars : Nat
  clauses : List (List Int)
deriving Repr, DecidableEq

/-- The constructor: `mem_max` exists only for API compatibility. -/
def CnfWriter.create (nVars : Nat) (mem_max : Int := 0) : CnfWriter :=
  ⟨nVars, []⟩

/-- `void add (int var)` — push a unit clause. -/
def CnfWriter.addUnit (w : CnfWriter) (var : Int) : CnfWriter :=
  { w with clauses := w.clauses ++ [[var]] }

/-- `bool add (const int* in, unsigned int size)` — reject a null or empty
input (both collapse to the empty list here), else push the clause verbatim. -/
def CnfWriter.add (w : CnfWriter) (c : List Int) : Bool × CnfWriter :=
  if c = [] then (false, w)
  else (true, { w with clauses := w.clauses ++ [c] })

/-- One clause line as the write loop emits it: every literal followed by a
space, then `0` and the `std::endl`. -/
def writeClauseChars (c : List Int) : List Char :=
  c.foldl (fun acc l => acc ++ printInt l ++ [' ']) [] ++ ['0', '\n']

/-- `bool write(const std::string& filename)` — the emitted file contents
(the `false`-on-open-failure path concerns the file system, not the text). -/
def CnfWriter.write (w : CnfWriter) : List Char :=
  "c converted by microsat-cpp's CnfWriter".toList ++ ['\n'] ++
    "p cnf ".toList ++ printNat w.nVars ++ [' '] ++ printNat w.clauses.length ++ ['\n'] ++
    w.clauses.foldl (fun acc c => acc ++ writeClauseChars c) []

/-- A writer charged by a sequence of `add(clause)` calls. -/
def CnfWriter.buildFrom (nVars : Nat) (adds : List (List Int)) : CnfWriter :=
  adds.foldl (fun w c => (w.add c).2) (CnfWriter.create nVars)

/-! ## The CLI driver (src/examples/cnfreader.cpp, `main`) -/

/-- `auto memLimit = 1 << 20; if (argc > 2) memLimit = std::stoi(argv[2]);` -/
def driverInitMemLimit (memArg : Option Int) : Int :=
  memArg.getD (2 ^ 20)

/-- The driver's retry loop: construct a `CnfReader`; on any thrown
`const char*` double `memLimit` and try again; stop once construction (and
with it parse and solve) succeeded. `fuel` bounds the iterations observed;
`none` means the loop was still running after `fuel` rounds. -/
def driverLoop {α : Type} (attempt : Int → Except String α) :
    Nat → Int → Option (α × Int)
  | 0, _ => none
  | fuel + 1, memLimit =>
    match attempt memLimit with
    | .ok a => some (a, memLimit)
    | .error _ => driverLoop attempt fuel (memLimit * 2)

/-- `main`: exit code `1` only when no filename was given; otherwise the
retry loop runs, and when it finishes the driver prints the statistics, the
status line and the model lines and falls through to `return 0` — whatever
`solve()` said. `none`: still inside the loop after `fuel` rounds. -/
def driverMain (filenameGiven : Bool) (file : Option (List Char))
    (memArg : Option Int) (fuel : Nat) : Option Nat :=
  if ¬filenameGiven then some 1
  else
    match driverLoop (fun m => cnfReaderRun file m) fuel (driverInitMemLimit memArg) with
    | some _ => some 0
    | none => none

/-! ## Lines of a text, and the DIMACS line shapes of the spec -/

theorem dropLine_length_lt (cs : List Char) (h : cs ≠ []) :
    (dropLine cs).length < cs.length := by
  rcases cs with _ | ⟨c, rest⟩
  · exact absurd rfl h
  · unfold dropLine
    by_cases hc : c = '\n'
    · rw [List.dropWhile_cons_of_neg (by simp [hc])]
      simp
    · rw [List.dropWhile_cons_of_pos (by simp [hc])]
      have := dropWhile_length_le (fun x => !(x = '\n')) rest
      have := List.length_tail (rest.dropWhile (fun x => !(x = '\n')))
      simp only [List.length_cons]
      omega

/-- The text cut at its newlines; a trailing fragment without a newline is a
line of its own, and nothing follows a terminating newline. -/
def linesOf (cs : List Char) : List (List Char) :=
  if h : cs = [] then []
  else (cs.takeWhile (fun x => !(x = '\n'))) :: linesOf (dropLine cs)
  termination_by cs.length
  decreasing_by exact dropLine_length_lt cs h

theorem takeWhile_no_newline_append (a b : List Char) (ha : '\n' ∉ a) :
    (a ++ '\n' :: b).takeWhile (fun x => !(x = '\n')) = a := by
  induction a with
  | nil => simp [List.takeWhile_cons]
  | cons x xs ih =>
    simp only [List.mem_cons, not_or] at ha
    have hx : ¬x = '\n' := fun hh => ha.1 hh.symm
    simp only [List.cons_append]
    rw [List.takeWhile_cons_of_pos (by simp [hx])]
    rw [ih ha.2]

theorem dropLine_append (a b : List Char) (ha : '\n' ∉ a) :
    dropLine (a ++ '\n' :: b) = b := by
  unfold dropLine
  induction a with
  | nil => simp [List.dropWhile_cons]
  | cons x xs ih =>
    simp only [List.mem_cons, not_or] at ha
    have hx : ¬x = '\n' := fun hh => ha.1 hh.symm
    simp only [List.cons_append]
    rw [List.dropWhile_cons_of_pos (by simp [hx])]
    exact ih ha.2

theorem linesOf_append (a b : List Char) (ha : '\n' ∉ a) :
    linesOf (a ++ '\n' :: b) = a :: linesOf b := by
  rw [linesOf, dif_neg (by simp : ¬(a ++ '\n' :: b = [])),
    takeWhile_no_newline_append a b ha, dropLine_append a b ha]

theorem linesOf_nil : linesOf [] = [] := by
  rw [linesOf]
  simp

/-- `parts` joined by single spaces: the "space-separated" of the spec. -/
def spaceSeparated : List (List Char) → List Char
  | [] => []
  | [x] => x
  | x :: xs => x ++ ' ' :: spaceSeparated xs

/-- The header line `p cnf <N> <M>` as the spec describes it. -/
def dimacsHeaderLine (nVars nClauses : Nat) : List Char :=
  spaceSeparated [['p'], ['c', 'n', 'f'], printNat nVars, printNat nClauses]

/-- A clause line as the spec describes it: the clause's literals in order,
space-separated, followed by the terminating `0`. -/
def dimacsClauseLine (c : List Int) : List Char :=
  spaceSeparated (c.map printInt ++ [['0']])

theorem spaceSeparated_cons (x : List Char) (xs : List (List Char)) (h : xs ≠ []) :
    spaceSeparated (x :: xs) = x ++ ' ' :: spaceSeparated xs := by
  rcases xs with _ | ⟨y, ys⟩
  · exact absurd rfl h
  · rfl

theorem writeClauseChars_eq_line (c : List Int) :
    writeClauseChars c = dimacsClauseLine c ++ ['\n'] := by
  suffices h : ∀ acc, c.foldl (fun acc l => acc ++ printInt l ++ [' ']) acc ++ ['0', '\n'] =
      acc ++ spaceSeparated (c.map printInt ++ [['0']]) ++ ['\n'] by
    have := h []
    simpa [writeClauseChars, dimacsClauseLine] using this
  induction c with
  | nil => intro acc; simp [spaceSeparated]
  | cons l ls ih =>
    intro acc
    simp only [List.foldl_cons, List.map_cons, List.cons_append]
    rw [ih, spaceSeparated_cons _ _ (by simp)]
    simp

theorem buildFrom_nVars (nVars : Nat) (adds : List (List Int)) :
    (CnfWriter.buildFrom nVars adds).nVars = nVars := by
  suffices h : ∀ (w : CnfWriter),
      (adds.foldl (fun w c => (w.add c).2) w).nVars = w.nVars by
    exact h _
  induction adds with
  | nil => intro w; rfl
  | cons c cls ih =>
    intro w
    rw [List.foldl_cons, ih]
    unfold CnfWriter.add
    by_cases hc : c = [] <;> simp [hc]

theorem buildFrom_clauses (nVars : Nat) (adds : List (List Int)) :
    (CnfWriter.buildFrom nVars adds).clauses = adds.filter (fun c => c ≠ []) := by
  suffices h : ∀ (w : CnfWriter),
      (adds.foldl (fun w c => (w.add c).2) w).clauses =
        w.clauses ++ adds.filter (fun c => c ≠ []) by
    simpa using h (CnfWriter.create nVars)
  induction adds with
  | nil => intro w; simp
  | cons c cls ih =>
    intro w
    rw [List.foldl_cons]
    by_cases hc : c = []
    · rw [show (w.add c).2 = w by simp [CnfWriter.add, hc], ih]
      simp [hc]
    · rw [show (w.add c).2 = { w with clauses := w.clauses ++ [c] } by
        simp [CnfWriter.add, hc], ih]
      simp [hc]

theorem newline_not_mem_printNat (n : Nat) : '\n' ∉ printNat n := by
  intro h
  have := printNat_all_digit n '\n' h
  simp at this

theorem newline_not_mem_printInt (l : Int) : '\n' ∉ printInt l := by
  unfold printInt
  by_cases h : l < 0
  · simp only [h, if_pos, List.mem_cons]
    rintro (h1 | h1)
    · simp at h1
    · exact newline_not_mem_printNat _ h1
  · simp only [h, if_neg]
    exact newline_not_mem_printNat _

theorem newline_not_mem_spaceSeparated (xs : List (List Char))
    (h : ∀ x ∈ xs, '\n' ∉ x) : '\n' ∉ spaceSeparated xs := by
  induction xs with
  | nil => simp [spaceSeparated]
  | cons x xs ih =>
    rcases xs with _ | ⟨y, ys⟩
    · simpa [spaceSeparated] using h x (by simp)
    · rw [spaceSeparated_cons x (y :: ys) (by simp)]
      simp only [List.mem_append, List.mem_cons, not_or]
      refine ⟨fun hx => h x (by simp) hx, by simp, fun hy => ?_⟩
      exact ih (fun z hz => h z (by simp [hz])) hy

theorem newline_not_mem_clauseLine (c : List Int) : '\n' ∉ dimacsClauseLine c := by
  unfold dimacsClauseLine
  apply newline_not_mem_spaceSeparated
  intro x hx
  rcases List.mem_append.mp hx with hx | hx
  · obtain ⟨l, -, rfl⟩ := List.mem_map.mp hx
    exact newline_not_mem_printInt l
  · simp only [List.mem_singleton] at hx
    subst hx
    simp

theorem newline_not_mem_headerLine (nV nC : Nat) :
    '\n' ∉ dimacsHeaderLine nV nC := by
  unfold dimacsHeaderLine
  apply newline_not_mem_spaceSeparated
  intro x hx
  simp only [List.mem_cons, List.not_mem_nil, or_false] at hx
  rcases hx with rfl | rfl | rfl | rfl
  · simp
  · simp
  · exact newline_not_mem_printNat nV
  · exact newline_not_mem_printNat nC

theorem foldl_append_eq_flatten_map {α : Type} (f : α → List Char) (l : List α) :
    l.foldl (fun acc c => acc ++ f c) [] = (l.map f).flatten := by
  suffices h : ∀ acc, l.foldl (fun acc c => acc ++ f c) acc = acc ++ (l.map f).flatten by
    simpa using h []
  induction l with
  | nil => intro acc; simp
  | cons x xs ih => intro acc; simp [ih]

theorem linesOf_flatten (ls : List (List Char)) (h : ∀ l ∈ ls, '\n' ∉ l) :
    linesOf (ls.map (fun l => l ++ ['\n'])).flatten = ls := by
  induction ls with
  | nil => simpa using linesOf_nil
  | cons l ls ih =>
    simp only [List.map_cons, List.flatten_cons, List.append_assoc, List.singleton_append]
    rw [linesOf_append l _ (h l (by simp))]
    rw [ih (fun x hx => h x (by simp [hx]))]

theorem header_chars_eq (nV nC : Nat) :
    "p cnf ".toList ++ (printNat nV ++ (' ' :: printNat nC)) =
      dimacsHeaderLine nV nC := by
  have hp : "p cnf ".toList = ['p', ' ', 'c', 'n', 'f', ' '] := rfl
  rw [hp]
  simp [dimacsHeaderLine, spaceSeparated]

/-- C6: the writer's emitted text is one comment line, then the header line
`p cnf <N> <M>` with `M` the number of clauses actually added, then one line
per clause: its literals in insertion order, space-separated, with the
terminating `0`. -/
theorem cnfwriter_write_format (N : Nat) (adds : List (List Int)) :
    ∃ comment : List Char,
      comment.head? = some 'c' ∧
      linesOf (CnfWriter.buildFrom N adds).write =
        comment :: dimacsHeaderLine N (adds.filter (fun c => c ≠ [])).length ::
          (adds.filter (fun c => c ≠ [])).map dimacsClauseLine := by
  refine ⟨"c converted by microsat-cpp's CnfWriter".toList, rfl, ?_⟩
  unfold CnfWriter.write
  rw [buildFrom_nVars, buildFrom_clauses, foldl_append_eq_flatten_map]
  have hfun : writeClauseChars = fun c => dimacsClauseLine c ++ ['\n'] :=
    funext writeClauseChars_eq_line
  rw [hfun]
  have hsplit : (adds.filter (fun c => c ≠ [])).map
      (fun c => dimacsClauseLine c ++ ['\n']) =
      ((adds.filter (fun c => c ≠ [])).map dimacsClauseLine).map
        (fun l => l ++ ['\n']) := by
    simp [List.map_map, Function.comp]
  rw [hsplit]
  have hassoc : "c converted by microsat-cpp's CnfWriter".toList ++ ['\n'] ++
      "p cnf ".toList ++ printNat N ++ [' '] ++
      printNat (adds.filter (fun c => c ≠ [])).length ++ ['\n'] ++
      (((adds.filter (fun c => c ≠ [])).map dimacsClauseLine).map
        (fun l => l ++ ['\n'])).flatten =
      "c converted by microsat-cpp's CnfWriter".toList ++ '\n' ::
        (("p cnf ".toList ++ (printNat N ++
          (' ' :: printNat (adds.filter (fun c => c ≠ [])).length))) ++ '\n' ::
          (((adds.filter (fun c => c ≠ [])).map dimacsClauseLine).map
            (fun l => l ++ ['\n'])).flatten) := by
    simp
  rw [hassoc, linesOf_append _ _ (by decide), header_chars_eq,
    linesOf_append _ _ (newline_not_mem_headerLine _ _),
    linesOf_flatten _ (fun l hl => by
      obtain ⟨c, -, rfl⟩ := List.mem_map.mp hl
      exact newline_not_mem_clauseLine c)]

/-! ## Lexer lemmas on printed numbers and tokens -/

theorem printNat_head (n : Nat) :
    ∃ (d : Char) (t : List Char), printNat n = d :: t ∧ d.isDigit = true := by
  rcases hp : printNat n with _ | ⟨d, t⟩
  · exact absurd hp (printNat_ne_nil n)
  · exact ⟨d, t, rfl, printNat_all_digit n d (by rw [hp]; simp)⟩

theorem isWs_of_digit (c : Char) (h : c.isDigit = true) : isWs c = false := by
  unfold isWs
  simp only [Bool.or_eq_false_iff, decide_eq_false_iff_not]
  refine ⟨⟨⟨⟨⟨?_, ?_⟩, ?_⟩, ?_⟩, ?_⟩, ?_⟩ <;> rintro rfl <;> simp at h

theorem digit_ne_minus (c : Char) (h : c.isDigit = true) : c ≠ '-' := by
  rintro rfl; simp at h

theorem digit_ne_plus (c : Char) (h : c.isDigit = true) : c ≠ '+' := by
  rintro rfl; simp at h

theorem extractInt_eq_of_dropWhile_eq (cs cs' : List Char)
    (h : cs.dropWhile isWs = cs'.dropWhile isWs) : extractInt cs = extractInt cs' := by
  unfold extractInt
  rw [h]

theorem extractUInt_eq_of_dropWhile_eq (cs cs' : List Char)
    (h : cs.dropWhile isWs = cs'.dropWhile isWs) : extractUInt cs = extractUInt cs' := by
  unfold extractUInt
  rw [h]

theorem dropWhile_isWs_ws_append (ws x : List Char) (h : ∀ c ∈ ws, isWs c = true) :
    (ws ++ x).dropWhile isWs = x.dropWhile isWs := by
  induction ws with
  | nil => simp
  | cons c cst ih =>
    rw [List.cons_append, List.dropWhile_cons_of_pos (h c (by simp))]
    exact ih (fun c hc => h c (by simp [hc]))

theorem dropWhile_isWs_of_head_not (c : Char) (x : List Char) (h : isWs c = false) :
    (c :: x).dropWhile isWs = c :: x :=
  List.dropWhile_cons_of_neg (by simp [h])

/-- Extracting an integer from its printed form followed by a non-digit
boundary character recovers the integer and stops at the boundary. -/
theorem extractInt_print (l : Int) (b : Char) (hb : b.isDigit = false)
    (tail : List Char) :
    extractInt (printInt l ++ b :: tail) = some (l, b :: tail) := by
  unfold printInt
  by_cases hneg : l < 0
  · rw [if_pos hneg]
    obtain ⟨d, t, hdt, hd⟩ := printNat_head (-l).toNat
    unfold extractInt
    rw [List.cons_append, dropWhile_isWs_of_head_not '-' _ (by decide)]
    dsimp only
    have hdig : headIsDigit (printNat (-l).toNat ++ b :: tail) = true := by
      rw [hdt]
      simpa [headIsDigit] using hd
    rw [if_pos rfl, if_pos hdig,
      readNat_printNat (-l).toNat (b :: tail) (fun c hc => by
        simp at hc; rw [← hc]; exact hb)]
    simp only [Option.some.injEq, Prod.mk.injEq]
    constructor
    · omega
    · trivial
  · rw [if_neg hneg]
    obtain ⟨d, t, hdt, hd⟩ := printNat_head l.toNat
    unfold extractInt
    rw [hdt, List.cons_append, dropWhile_isWs_of_head_not d _ (isWs_of_digit d hd)]
    dsimp only
    rw [if_neg (digit_ne_minus d hd), if_neg (digit_ne_plus d hd), if_pos hd,
      ← List.cons_append, ← hdt,
      readNat_printNat l.toNat (b :: tail) (fun c hc => by
        simp at hc; rw [← hc]; exact hb)]
    simp only [Option.some.injEq, Prod.mk.injEq]
    constructor
    · omega
    · trivial

/-- The `unsigned` flavour, on a printed natural number. -/
theorem extractUInt_print (n : Nat) (b : Char) (hb : b.isDigit = false)
    (tail : List Char) :
    extractUInt (printNat n ++ b :: tail) = some (n, b :: tail) := by
  obtain ⟨d, t, hdt, hd⟩ := printNat_head n
  unfold extractUInt
  rw [hdt, List.cons_append, dropWhile_isWs_of_head_not d _ (isWs_of_digit d hd)]
  dsimp only
  rw [if_neg (digit_ne_minus d hd), if_neg (digit_ne_plus d hd), if_pos hd,
    ← List.cons_append, ← hdt,
    readNat_printNat n (b :: tail) (fun c hc => by
      simp at hc; rw [← hc]; exact hb)]

/-- Tokenising `p ...`: the header id token. -/
theorem extractToken_p (x : List Char) :
    extractToken ('p' :: ' ' :: x) = ("p", ' ' :: x) := by
  unfold extractToken
  rw [dropWhile_isWs_of_head_not 'p' _ (by decide)]
  dsimp only
  rw [List.takeWhile_cons_of_pos (by decide), List.takeWhile_cons_of_neg (by decide),
    List.dropWhile_cons_of_pos (by decide), List.dropWhile_cons_of_neg (by decide)]

/-- Tokenising ` cnf ...`: the format token. -/
theorem extractToken_cnf (x : List Char) :
    extractToken (' ' :: 'c' :: 'n' :: 'f' :: ' ' :: x) = ("cnf", ' ' :: x) := by
  unfold extractToken
  rw [List.dropWhile_cons_of_pos (by decide),
    dropWhile_isWs_of_head_not 'c' _ (by decide)]
  dsimp only
  rw [List.takeWhile_cons_of_pos (by decide), List.takeWhile_cons_of_pos (by decide),
    List.takeWhile_cons_of_pos (by decide), List.takeWhile_cons_of_neg (by decide),
    List.dropWhile_cons_of_pos (by decide), List.dropWhile_cons_of_pos (by decide),
    List.dropWhile_cons_of_pos (by decide), List.dropWhile_cons_of_neg (by decide)]

/-- Reading the header off a well-formed `p cnf <N> <M>` line. -/
theorem readHeader_dimacs (nV nC : Nat) (body : List Char) :
    readHeader ('p' :: ' ' :: 'c' :: 'n' :: 'f' :: ' ' ::
        (printNat nV ++ ' ' :: (printNat nC ++ '\n' :: body))) =
      ⟨"p", "cnf", nV, nC, '\n' :: body, true⟩ := by
  unfold readHeader
  rw [extractToken_p]
  dsimp only
  rw [extractToken_cnf]
  dsimp only
  have h1 : extractUInt (' ' :: (printNat nV ++ ' ' :: (printNat nC ++ '\n' :: body))) =
      some (nV, ' ' :: (printNat nC ++ '\n' :: body)) := by
    rw [extractUInt_eq_of_dropWhile_eq _ (printNat nV ++ ' ' :: (printNat nC ++ '\n' :: body))
      (by rw [show (' ' :: (printNat nV ++ ' ' :: (printNat nC ++ '\n' :: body))) =
          ([' '] ++ (printNat nV ++ ' ' :: (printNat nC ++ '\n' :: body))) from rfl,
        dropWhile_isWs_ws_append _ _ (by simp [isWs])])]
    exact extractUInt_print nV ' ' (by decide) _
  rw [h1]
  dsimp only
  have h2 : extractUInt (' ' :: (printNat nC ++ '\n' :: body)) =
      some (nC, '\n' :: body) := by
    rw [extractUInt_eq_of_dropWhile_eq _ (printNat nC ++ '\n' :: body)
      (by rw [show (' ' :: (printNat nC ++ '\n' :: body)) =
          ([' '] ++ (printNat nC ++ '\n' :: body)) from rfl,
        dropWhile_isWs_ws_append _ _ (by simp [isWs])])]
    exact extractUInt_print nC '\n' (by decide) _
  rw [h2]
  simp

/-- The clause bodies of the emitted file, one `writeClauseChars` run per
clause. -/
def encodeClauses (C : List (List Int)) : List Char :=
  (C.map writeClauseChars).flatten

/-- The literal section of one clause line: each literal then a space. -/
def litChars (c : List Int) : List Char :=
  (c.map (fun l => printInt l ++ [' '])).flatten

theorem writeClauseChars_eq_lits (c : List Int) :
    writeClauseChars c = litChars c ++ '0' :: '\n' :: [] := by
  suffices h : ∀ acc, c.foldl (fun acc l => acc ++ printInt l ++ [' ']) acc =
      acc ++ litChars c by
    rw [writeClauseChars, h []]
    simp
  induction c with
  | nil => intro acc; simp [litChars]
  | cons l ls ih =>
    intro acc
    rw [List.foldl_cons, ih]
    simp [litChars]

theorem printInt_zero : printInt 0 = ['0'] := by
  rw [printInt, if_neg (by omega), printNat]
  norm_num

/-- A remainder on which `f >> next` fails: only whitespace left, or the next
non-whitespace character can start no integer. -/
def stopsExtraction (bad : List Char) : Prop :=
  bad.dropWhile isWs = [] ∨
    ∃ c rest, bad.dropWhile isWs = c :: rest ∧ c ≠ '-' ∧ c ≠ '+' ∧ c.isDigit = false

theorem extractInt_none_of_stops (ws bad : List Char)
    (hws : ∀ x ∈ ws, isWs x = true) (hbad : stopsExtraction bad) :
    extractInt (ws ++ bad) = none := by
  unfold extractInt
  rw [dropWhile_isWs_ws_append ws bad hws]
  rcases hbad with h | ⟨c, rest, h, h1, h2, h3⟩
  · rw [h]
  · rw [h]
    dsimp only
    rw [if_neg h1, if_neg h2, if_neg (by simp [h3])]

/-- The inner literal loop consumes one encoded clause up to and including
its `0` terminator, leaving the newline for the next round. -/
theorem readLits_encode (c : List Int) :
    ∀ (ws : List Char), (∀ x ∈ ws, isWs x = true) → (∀ l ∈ c, l ≠ 0) →
      ∀ (acc : List Int) (tail : List Char),
        readLits (ws ++ (litChars c ++ '0' :: '\n' :: tail)) acc =
          (acc ++ c, '\n' :: tail, true) := by
  induction c with
  | nil =>
    intro ws hws _ acc tail
    have hz : extractInt (ws ++ (litChars [] ++ '0' :: '\n' :: tail)) =
        some (0, '\n' :: tail) := by
      rw [show litChars [] ++ '0' :: '\n' :: tail = printInt 0 ++ '\n' :: tail by
        simp [litChars, printInt_zero]]
      rw [extractInt_eq_of_dropWhile_eq _ (printInt 0 ++ '\n' :: tail)
        (dropWhile_isWs_ws_append ws _ hws)]
      exact extractInt_print 0 '\n' (by decide) tail
    rw [readLits_zero _ _ _ hz]
    simp
  | cons l ls ih =>
    intro ws hws hnz acc tail
    have hstream : ws ++ (litChars (l :: ls) ++ '0' :: '\n' :: tail) =
        ws ++ (printInt l ++ ' ' :: (litChars ls ++ '0' :: '\n' :: tail)) := by
      simp [litChars]
    have hx : extractInt (ws ++ (litChars (l :: ls) ++ '0' :: '\n' :: tail)) =
        some (l, ' ' :: (litChars ls ++ '0' :: '\n' :: tail)) := by
      rw [hstream,
        extractInt_eq_of_dropWhile_eq _ (printInt l ++ ' ' :: (litChars ls ++ '0' :: '\n' :: tail))
          (dropWhile_isWs_ws_append ws _ hws)]
      exact extractInt_print l ' ' (by decide) _
    rw [readLits_lit _ _ _ l hx (hnz l (by simp))]
    rw [show (' ' :: (litChars ls ++ '0' :: '\n' :: tail)) =
        ([' '] ++ (litChars ls ++ '0' :: '\n' :: tail)) from rfl]
    rw [ih [' '] (by simp [isWs]) (fun l hl => hnz l (by simp [hl])) (acc ++ [l]) tail]
    simp

/-- The outer clause loop on a whitespace gap, the encoded clauses, and a
remainder the lexer cannot start an integer on: every clause is passed to
`add` in order, then one final `add` with the empty clause. -/
theorem clauseLoop_encode (C : List (List Int)) :
    ∀ (ws : List Char), ws ≠ [] → (∀ x ∈ ws, isWs x = true) →
      (∀ c ∈ C, ∀ l ∈ c, l ≠ 0) →
      ∀ (bad : List Char), stopsExtraction bad →
        clauseLoop (ws ++ (encodeClauses C ++ bad)) = C ++ [[]] := by
  induction C with
  | nil =>
    intro ws hne hws _ bad hbad
    have hz : encodeClauses [] ++ bad = bad := by simp [encodeClauses]
    rw [hz]
    have hr : readLits (ws ++ bad) [] = ([], ws ++ bad, false) :=
      readLits_none _ _ (extractInt_none_of_stops ws bad hws hbad)
    rw [clauseLoop_stop _ _ _ hr]
    simp
  | cons c C ih =>
    intro ws hne hws hnz bad hbad
    have hstream : ws ++ (encodeClauses (c :: C) ++ bad) =
        ws ++ (litChars c ++ '0' :: '\n' :: (encodeClauses C ++ bad)) := by
      simp [encodeClauses, writeClauseChars_eq_lits]
    rw [hstream]
    have hr := readLits_encode c ws hws (hnz c (by simp)) [] (encodeClauses C ++ bad)
    rw [clauseLoop_good _ _ _ (by rw [hr])]
    rw [show ('\n' :: (encodeClauses C ++ bad)) = (['\n'] ++ (encodeClauses C ++ bad)) from rfl]
    rw [ih ['\n'] (by simp) (by simp [isWs]) (fun cc hc => hnz cc (by simp [hc])) bad hbad]
    simp

theorem dimacsHeaderLine_cons (nV nC : Nat) :
    dimacsHeaderLine nV nC =
      'p' :: ' ' :: 'c' :: 'n' :: 'f' :: ' ' :: (printNat nV ++ ' ' :: printNat nC) := by
  rw [← header_chars_eq]
  rfl

/-- The constructor's result depends on the stream only through
`skipComments`. -/
theorem cnfReaderParse_skip_congr (cs cs' : List Char) (mem : Int)
    (h : skipComments cs = skipComments cs') :
    cnfReaderParse cs mem = cnfReaderParse cs' mem := by
  unfold cnfReaderParse
  rw [h]

/-- The constructor on a headered stream of well-formed encoded clauses
followed by a remainder the literal lexer fails on: it accepts, records the
header counts, performs one `add` per encoded clause in order plus the final
empty `add`, and stores the solver run on exactly those calls. -/
theorem cnfReaderParse_encoded (N M : Nat) (C : List (List Int)) (bad : List Char)
    (mem : Int) (hN : N ≠ 0) (hM : M ≠ 0) (hC : ∀ c ∈ C, ∀ l ∈ c, l ≠ 0)
    (hbad : stopsExtraction bad) :
    cnfReaderParse (dimacsHeaderLine N M ++ '\n' :: (encodeClauses C ++ bad)) mem =
      .ok ⟨N, M, C ++ [[]],
        (C ++ [[]]).foldl (fun (s : MicroSAT) c => (s.add c).2) (MicroSAT.create N mem),
        ((C ++ [[]]).foldl (fun (s : MicroSAT) c => (s.add c).2) (MicroSAT.create N mem)).solve⟩ := by
  have hshape : dimacsHeaderLine N M ++ '\n' :: (encodeClauses C ++ bad) =
      'p' :: ' ' :: 'c' :: 'n' :: 'f' :: ' ' ::
        (printNat N ++ ' ' :: (printNat M ++ '\n' :: (encodeClauses C ++ bad))) := by
    rw [dimacsHeaderLine_cons]
    simp
  have hskip : skipComments (dimacsHeaderLine N M ++ '\n' :: (encodeClauses C ++ bad)) =
      dimacsHeaderLine N M ++ '\n' :: (encodeClauses C ++ bad) := by
    rw [hshape]
    exact skipComments_other 'p' _ (by decide)
  have hheader : readHeader (dimacsHeaderLine N M ++ '\n' :: (encodeClauses C ++ bad)) =
      ⟨"p", "cnf", N, M, '\n' :: (encodeClauses C ++ bad), true⟩ := by
    rw [hshape]
    exact readHeader_dimacs N M (encodeClauses C ++ bad)
  unfold cnfReaderParse
  rw [hskip, hheader]
  dsimp only
  rw [if_neg (by simp), if_neg (by simp [hN, hM]), if_pos rfl]
  rw [show ('\n' :: (encodeClauses C ++ bad)) = (['\n'] ++ (encodeClauses C ++ bad)) from rfl,
    clauseLoop_encode C ['\n'] (by simp) (by simp [isWs]) hC bad hbad]

/-- The writer's output, reassociated into comment line, header line and
encoded clause bodies. -/
theorem write_buildFrom_shape (N : Nat) (C : List (List Int))
    (hne : ∀ c ∈ C, c ≠ []) :
    (CnfWriter.buildFrom N C).write =
      'c' :: (" converted by microsat-cpp's CnfWriter".toList ++ '\n' ::
        (dimacsHeaderLine N C.length ++ '\n' :: encodeClauses C)) := by
  unfold CnfWriter.write
  rw [buildFrom_nVars, buildFrom_clauses, foldl_append_eq_flatten_map]
  have hfilter : C.filter (fun c => c ≠ []) = C :=
    List.filter_eq_self.mpr (fun c hc => by simpa using hne c hc)
  rw [hfilter, dimacsHeaderLine_cons]
  have hcomment : "c converted by microsat-cpp's CnfWriter".toList =
      'c' :: " converted by microsat-cpp's CnfWriter".toList := rfl
  have hp : "p cnf ".toList = ['p', ' ', 'c', 'n', 'f', ' '] := rfl
  rw [hcomment, hp]
  simp [encodeClauses]

/-- Skipping the writer's comment line. -/
theorem skipComments_write (N : Nat) (C : List (List Int)) (tail : List Char)
    (hne : ∀ c ∈ C, c ≠ []) :
    skipComments ((CnfWriter.buildFrom N C).write ++ tail) =
      dimacsHeaderLine N C.length ++ '\n' :: (encodeClauses C ++ tail) := by
  rw [write_buildFrom_shape N C hne]
  rw [show ('c' :: (" converted by microsat-cpp's CnfWriter".toList ++ '\n' ::
      (dimacsHeaderLine N C.length ++ '\n' :: encodeClauses C))) ++ tail =
    'c' :: (" converted by microsat-cpp's CnfWriter".toList ++ '\n' ::
      (dimacsHeaderLine N C.length ++ '\n' :: (encodeClauses C ++ tail))) by simp]
  rw [skipComments_comment, dropLine_append _ _ (by decide)]
  rw [show dimacsHeaderLine N C.length ++ '\n' :: (encodeClauses C ++ tail) =
    'p' :: ' ' :: 'c' :: 'n' :: 'f' :: ' ' ::
      (printNat N ++ ' ' :: (printNat C.length ++ '\n' :: (encodeClauses C ++ tail))) by
      rw [dimacsHeaderLine_cons]; simp]
  exact skipComments_other 'p' _ (by decide)

/-! ## Solver-level lemmas (for the model-soundness claim) -/

/-- The solver after a sequence of `add` calls on a fresh instance. -/
def solverOf (nVars : Nat) (mem : Int) (adds : List (List Int)) : MicroSAT :=
  adds.foldl (fun s c => (s.add c).2) (MicroSAT.create nVars mem)

theorem add_nVars (s : MicroSAT) (c : List Int) : ((s.add c).2).nVars = s.nVars := by
  unfold MicroSAT.add
  split_ifs <;> rfl

theorem foldl_add_nVars (adds : List (List Int)) :
    ∀ s0 : MicroSAT, (adds.foldl (fun s c => (s.add c).2) s0).nVars = s0.nVars := by
  induction adds with
  | nil => intro s0; rfl
  | cons a as ih =>
    intro s0
    rw [List.foldl_cons, ih, add_nVars]

theorem add_clauses_mono (s : MicroSAT) (c cl : List Int) (h : cl ∈ s.clauses) :
    cl ∈ ((s.add c).2).clauses := by
  unfold MicroSAT.add
  split_ifs <;> simp [h]

theorem foldl_add_clauses_mono (adds : List (List Int)) :
    ∀ (s0 : MicroSAT) (cl : List Int), cl ∈ s0.clauses →
      cl ∈ (adds.foldl (fun s c => (s.add c).2) s0).clauses := by
  induction adds with
  | nil => intro s0 cl h; exact h
  | cons a as ih =>
    intro s0 cl h
    rw [List.foldl_cons]
    exact ih _ _ (add_clauses_mono s0 a cl h)

/-- A clause that passes every check of `add` ends up stored (deduplicated)
in the final clause list. -/
theorem mem_foldl_add_clauses (adds : List (List Int)) :
    ∀ (s0 : MicroSAT) (c : List Int), c ∈ adds → c ≠ [] →
      (c.any (fun l => l = 0 || s0.nVars < l.natAbs)) = false →
      (c.any (fun l => decide ((-l) ∈ c))) = false →
      c.dedup ∈ (adds.foldl (fun s c => (s.add c).2) s0).clauses := by
  induction adds with
  | nil => intro s0 c hc; exact absurd hc (by simp)
  | cons a as ih =>
    intro s0 c hc hne hv ht
    rw [List.foldl_cons]
    rcases List.mem_cons.mp hc with rfl | hc
    · apply foldl_add_clauses_mono
      unfold MicroSAT.add
      rw [if_neg hne, if_neg (by simp [hv]), if_neg (by simp [ht])]
      simp
    · refine ih _ c hc hne ?_ ht
      rw [add_nVars]
      exact hv

theorem query_of_solveModel (s : MicroSAT) (m : Nat) (h : s.solveModel = some m) :
    ∀ v : Nat, s.query v = bitAssign m v := by
  intro v
  unfold MicroSAT.query
  rw [h]

theorem solveModel_satisfies (s : MicroSAT) (m : Nat) (h : s.solveModel = some m) :
    ∀ c ∈ s.clauses, satClause (bitAssign m) c = true := by
  unfold MicroSAT.solveModel at h
  have := List.find?_some h
  simpa [List.all_eq_true] using this

/-- C2: if `solve()` reports SAT, then every input clause — nonempty, with
nonzero literals within `1..N` — contains a literal `L` with
`query(|L|) = true` iff `L` is positive. -/
theorem c2_sat_model_satisfies (N : Nat) (mem : Int) (adds : List (List Int))
    (hsat : (solverOf N mem adds).solve = true) :
    ∀ c ∈ adds, c ≠ [] → (∀ l ∈ c, l ≠ 0 ∧ l.natAbs ≤ N) →
      ∃ l ∈ c, (solverOf N mem adds).query l.natAbs = decide (0 < l) := by
  intro c hc hne hval
  obtain ⟨m, hm⟩ := Option.isSome_iff_exists.mp hsat
  have hquery := query_of_solveModel _ m hm
  by_cases ht : (c.any (fun l => decide ((-l) ∈ c))) = true
  · obtain ⟨l, hl, hlt⟩ := List.any_eq_true.mp ht
    have hlneg : (-l) ∈ c := of_decide_eq_true hlt
    have hl0 : l ≠ 0 := (hval l hl).1
    rcases hb : bitAssign m l.natAbs with _ | _
    · refine ⟨if l < 0 then l else -l, ?_, ?_⟩
      · by_cases hneg : l < 0 <;> simp [hneg, hl, hlneg]
      · have habs : (if l < 0 then l else -l).natAbs = l.natAbs := by
          by_cases hneg : l < 0 <;> simp [hneg]
        have hlt0 : (if l < 0 then l else -l) < 0 := by
          by_cases hneg : l < 0 <;> simp [hneg] <;> omega
        rw [hquery, habs, hb]
        simp
        omega
    · refine ⟨if 0 < l then l else -l, ?_, ?_⟩
      · by_cases hpos : 0 < l <;> simp [hpos, hl, hlneg]
      · have habs : (if 0 < l then l else -l).natAbs = l.natAbs := by
          by_cases hpos : 0 < l <;> simp [hpos]
        have hgt0 : 0 < (if 0 < l then l else -l) := by
          by_cases hpos : 0 < l <;> simp [hpos] <;> omega
        rw [hquery, habs, hb]
        simp
        omega
  · have hv : (c.any (fun l => l = 0 || (MicroSAT.create N mem).nVars < l.natAbs)) = false := by
      simp only [List.any_eq_false]
      intro l hl
      have := hval l hl
      simp only [Bool.or_eq_true, decide_eq_true_eq, not_or]
      constructor
      · exact fun h0 => this.1 (by exact_mod_cast h0)
      · show ¬((MicroSAT.create N mem).nVars < l.natAbs)
        have hN : (MicroSAT.create N mem).nVars = N := rfl
        omega
    have hmem := mem_foldl_add_clauses adds (MicroSAT.create N mem) c hc hne hv
      (by simpa using ht)
    have hsatc := solveModel_satisfies _ m hm c.dedup hmem
    unfold satClause at hsatc
    obtain ⟨l, hld, hsl⟩ := List.any_eq_true.mp hsatc
    have hl : l ∈ c := List.mem_dedup.mp hld
    have hl0 : l ≠ 0 := (hval l hl).1
    refine ⟨l, hl, ?_⟩
    rw [hquery]
    unfold satLit at hsl
    by_cases hp : 0 < l
    · rw [if_pos hp] at hsl
      have habs : l.natAbs = l.toNat := by omega
      rw [habs, hsl]
      simp [hp]
    · rw [if_neg hp] at hsl
      have hneg : l < 0 := by omega
      have habs : l.natAbs = (-l).toNat := by omega
      rw [habs]
      simp only [Bool.not_eq_true'] at hsl
      rw [hsl]
      simp
      omega

/-- Witness for C2 at the one-variable problem `{1}`. -/
theorem c2_sat_model_satisfies_witness :
    ∃ l ∈ [(1 : Int)], (solverOf 1 0 [[1]]).query l.natAbs = decide (0 < l) :=
  c2_sat_model_satisfies 1 0 [[1]] (by decide) [1] (by decide) (by decide)
    (by decide)

/-! ## Demonstration inputs -/

/-- A satisfiable DIMACS file: one variable, the single unit clause `1`. -/
def demoSatFile : List Char := "p cnf 1 1\n1 0\n".toList

/-- What the reader constructor computes on `demoSatFile`. -/
def demoSatState : CnfReaderState :=
  ⟨1, 1, [[1], []], ⟨1, [[1]]⟩, true⟩

theorem demoSat_parse : cnfReaderParse demoSatFile (2 ^ 20) = .ok demoSatState :=
  cnfReaderParseFuel_sound _ _ _ (by decide)

/-- An unsatisfiable DIMACS file: the clauses `1` and `-1`. -/
def demoUnsatFile : List Char := "p cnf 1 2\n1 0\n-1 0\n".toList

/-- What the reader constructor computes on `demoUnsatFile`. -/
def demoUnsatState : CnfReaderState :=
  ⟨1, 2, [[1], [-1], []], ⟨1, [[1], [-1]]⟩, false⟩

theorem demoUnsat_parse : cnfReaderParse demoUnsatFile (2 ^ 20) = .ok demoUnsatState :=
  cnfReaderParseFuel_sound _ _ _ (by decide)

/-! ## Driver behaviour -/

theorem driverLoop_error_forever {α : Type} (attempt : Int → Except String α)
    (h : ∀ m : Int, ∃ e : String, attempt m = .error e) :
    ∀ (fuel : Nat) (mem : Int), driverLoop attempt fuel mem = none := by
  intro fuel
  induction fuel with
  | zero => intro mem; rfl
  | succ n ih =>
    intro mem
    obtain ⟨e, he⟩ := h mem
    simp only [driverLoop, he]
    exact ih _

/-- C7: the reader's `mem_max` defaults to `1 << 20`, the driver starts at
`1 << 20` when no second argument is given, and each failed construction
(every thrown `const char*`, in particular OUT_OF_MEMORY) makes the driver
retry the whole parse-and-solve with the limit doubled. -/
theorem c7_memory_limits :
    defaultMemMax = 2 ^ 20 ∧
    driverInitMemLimit none = 2 ^ 20 ∧
    ∀ (α : Type) (attempt : Int → Except String α) (fuel : Nat) (mem : Int)
      (e : String), attempt mem = .error e →
      driverLoop attempt (fuel + 1) mem = driverLoop attempt fuel (mem * 2) := by
  refine ⟨rfl, rfl, ?_⟩
  intro α attempt fuel mem e h
  simp only [driverLoop, h]

/-- Witness for C7 at a concrete failing attempt. -/
theorem c7_memory_limits_witness :
    driverLoop (fun m => cnfReaderRun none m) (0 + 1) (2 ^ 20) =
      driverLoop (fun m => cnfReaderRun none m) 0 (2 ^ 20 * 2) :=
  c7_memory_limits.2.2 CnfReaderState (fun m => cnfReaderRun none m) 0 (2 ^ 20)
    "file not found" rfl

/-- C10: when every construction attempt throws (for instance the file can
never be opened), the driver's catch-all `const char*` handler keeps doubling
and retrying, so `main` never returns — after any number of rounds it is
still looping, and in particular never exits with a nonzero code on an I/O
or parse error. -/
theorem c10_driver_never_terminates (file : Option (List Char))
    (memArg : Option Int)
    (h : ∀ m : Int, ∃ e : String, cnfReaderRun file m = .error e) (fuel : Nat) :
    driverMain true file memArg fuel = none := by
  unfold driverMain
  rw [if_neg (by simp)]
  rw [driverLoop_error_forever _ h fuel _]

/-- Witness for C10: a file that cannot be opened. -/
theorem c10_driver_never_terminates_witness :
    driverMain true none none 100 = none :=
  c10_driver_never_terminates none none (fun _ => ⟨"file not found", rfl⟩) 100

/-- C3, counterexample: on `demoUnsatFile` the parse succeeds, `solve()`
records UNSAT, yet the driver's exit code is `0`, not `1` — `main` always
falls through to `return 0` once construction succeeded. -/
theorem c3_unsat_exit_zero_cex :
    cnfReaderParse demoUnsatFile (2 ^ 20) = .ok demoUnsatState ∧
    demoUnsatState.satisfiable = false ∧
    driverMain true (some demoUnsatFile) none 1 = some 0 := by
  refine ⟨demoUnsat_parse, rfl, ?_⟩
  unfold driverMain
  rw [if_neg (by simp)]
  have hrun : cnfReaderRun (some demoUnsatFile) (driverInitMemLimit none) =
      .ok demoUnsatState := demoUnsat_parse
  simp only [driverLoop, hrun]

/-- C3 as amended: for every file the driver parses and solves successfully,
the exit code is `0` — for SAT and for UNSAT alike. -/
theorem c3_driver_exit_zero (file : List Char) (memArg : Option Int)
    (fuel : Nat) (r : CnfReaderState)
    (h : cnfReaderRun (some file) (driverInitMemLimit memArg) = .ok r) :
    driverMain true (some file) memArg (fuel + 1) = some 0 := by
  unfold driverMain
  rw [if_neg (by simp)]
  simp only [driverLoop, h]

/-- Witness for the amended C3, at the satisfiable demonstration file. -/
theorem c3_driver_exit_zero_witness :
    driverMain true (some demoSatFile) none (0 + 1) = some 0 :=
  c3_driver_exit_zero demoSatFile none 0 demoSatState demoSat_parse

/-- C8: the constructor records the one `solve()` run; `solve()` is a pure
read of that record — iterating it any number of times returns the same
boolean and leaves the reader unchanged — and `query` reads the solver's
recorded model. -/
theorem c8_solve_recorded (cs : List Char) (mem : Int) (r : CnfReaderState)
    (h : cnfReaderParse cs mem = .ok r) :
    r.satisfiable = r.solver.solve ∧
    r.solveCall = (r.satisfiable, r) ∧
    (∀ n : Nat, (fun p : Bool × CnfReaderState => p.2.solveCall)^[n] r.solveCall =
      (r.satisfiable, r)) ∧
    (∀ v : Nat, r.query v = r.solver.query v) := by
  refine ⟨?_, rfl, ?_, fun v => rfl⟩
  · unfold cnfReaderParse at h
    dsimp only at h
    split_ifs at h with h1 h2 h3 <;>
      first
        | (simp only [Except.ok.injEq] at h; rw [← h])
        | exact absurd h (by simp)
  · intro n
    induction n with
    | zero => rfl
    | succ k ih => rw [Function.iterate_succ_apply', ih]; rfl

/-- Witness for C8 at the satisfiable demonstration file. -/
theorem c8_solve_recorded_witness :
    demoSatState.satisfiable = demoSatState.solver.solve ∧
    demoSatState.solveCall = (demoSatState.satisfiable, demoSatState) ∧
    (∀ n : Nat, (fun p : Bool × CnfReaderState => p.2.solveCall)^[n]
      demoSatState.solveCall = (demoSatState.satisfiable, demoSatState)) ∧
    (∀ v : Nat, demoSatState.query v = demoSatState.solver.query v) :=
  c8_solve_recorded demoSatFile (2 ^ 20) demoSatState demoSat_parse

/-! ## The remaining claims: reader error cases, comment handling, round trip -/

theorem skipComments_headered (nV nC : Nat) (x : List Char) :
    skipComments (dimacsHeaderLine nV nC ++ '\n' :: x) =
      dimacsHeaderLine nV nC ++ '\n' :: x := by
  rw [show dimacsHeaderLine nV nC ++ '\n' :: x =
    'p' :: ' ' :: 'c' :: 'n' :: 'f' :: ' ' ::
      (printNat nV ++ ' ' :: (printNat nC ++ '\n' :: x)) by
      rw [dimacsHeaderLine_cons]; simp]
  exact skipComments_other 'p' _ (by decide)

/-- C4: the constructor throws `"file not found"` on an unopenable file,
`"invalid file marker"` when the first two header tokens are not `p` and
`cnf`, `"invalid number of elements"` when the header's counts read as zero;
with a well-formed header and nonzero counts it adds the parsed clauses and
solves without any parse error. -/
theorem c4_reader_error_cases (cs : List Char) (mem : Int) :
    cnfReaderRun none mem = .error "file not found" ∧
    ((readHeader (skipComments cs)).headerId ≠ "p" ∨
        (readHeader (skipComments cs)).format ≠ "cnf" →
      cnfReaderParse cs mem = .error "invalid file marker") ∧
    ((readHeader (skipComments cs)).headerId = "p" →
      (readHeader (skipComments cs)).format = "cnf" →
      (readHeader (skipComments cs)).nVars = 0 ∨
        (readHeader (skipComments cs)).nClauses = 0 →
      cnfReaderParse cs mem = .error "invalid number of elements") ∧
    ((readHeader (skipComments cs)).headerId = "p" →
      (readHeader (skipComments cs)).format = "cnf" →
      (readHeader (skipComments cs)).nVars ≠ 0 →
      (readHeader (skipComments cs)).nClauses ≠ 0 →
      ∃ r, cnfReaderParse cs mem = .ok r ∧ r.satisfiable = r.solver.solve) := by
  refine ⟨rfl, ?_, ?_, ?_⟩
  · intro h
    unfold cnfReaderParse
    dsimp only
    rw [if_pos h]
  · intro h1 h2 h3
    unfold cnfReaderParse
    dsimp only
    rw [if_neg (by simp [h1, h2]), if_pos h3]
  · intro h1 h2 h3 h4
    unfold cnfReaderParse
    dsimp only
    rw [if_neg (by simp [h1, h2]), if_neg (by simp [h3, h4])]
    exact ⟨_, rfl, rfl⟩

/-- Witness for C4's success branch at the satisfiable demonstration file. -/
theorem c4_reader_error_cases_witness :
    ∃ r, cnfReaderParse demoSatFile (2 ^ 20) = .ok r ∧
      r.satisfiable = r.solver.solve := by
  have hskip : skipComments demoSatFile = demoSatFile :=
    skipCommentsFuel_sound 20 demoSatFile demoSatFile (by decide)
  exact (c4_reader_error_cases demoSatFile (2 ^ 20)).2.2.2
    (by rw [hskip]; decide) (by rw [hskip]; decide)
    (by rw [hskip]; decide) (by rw [hskip]; decide)

/-- C5: a line before the header whose first character is `c` is consumed
and ignored (the parse result is that of the remaining input); the skip loop
stops at the first line not starting with `c`, so the header is read from
there; and after the header nothing is ever skipped as a comment — a `c` at
a clause position fails the literal lexer, the current clause is added,
parsing stops, and everything after the `c` (here arbitrary `junk`) is
ignored rather than resumed. -/
theorem c5_comments_only_before_header :
    (∀ (line rest : List Char) (mem : Int), line.head? = some 'c' → '\n' ∉ line →
      cnfReaderParse (line ++ '\n' :: rest) mem = cnfReaderParse rest mem) ∧
    (∀ cs : List Char, (∀ c, cs.head? = some c → c ≠ 'c') →
      skipComments cs = cs) ∧
    (∀ (N M : Nat) (C : List (List Int)) (junk : List Char) (mem : Int),
      N ≠ 0 → M ≠ 0 → (∀ c ∈ C, ∀ l ∈ c, l ≠ 0) →
      ∃ r, cnfReaderParse
          (dimacsHeaderLine N M ++ '\n' :: (encodeClauses C ++ 'c' :: junk)) mem =
          .ok r ∧ r.addCalls = C ++ [[]]) := by
  refine ⟨?_, ?_, ?_⟩
  · intro line rest mem h1 h2
    rcases line with _ | ⟨c, tail⟩
    · simp at h1
    · simp only [List.head?_cons, Option.some.injEq] at h1
      subst h1
      apply cnfReaderParse_skip_congr
      rw [List.cons_append, skipComments_comment,
        dropLine_append tail rest (fun h => h2 (by simp [h]))]
  · intro cs h
    rcases cs with _ | ⟨c, tail⟩
    · exact skipComments_nil
    · exact skipComments_other c tail (h c rfl)
  · intro N M C junk mem hN hM hC
    refine ⟨_, cnfReaderParse_encoded N M C ('c' :: junk) mem hN hM hC ?_, rfl⟩
    exact Or.inr ⟨'c', junk, dropWhile_isWs_of_head_not 'c' junk (by decide),
      by decide, by decide, by decide⟩

/-- Witness for C5 at concrete inputs: a skipped pre-header comment line, a
non-comment head, and a mid-stream comment that ends parsing. -/
theorem c5_comments_only_before_header_witness :
    cnfReaderParse ("c hi".toList ++ '\n' :: demoSatFile) (2 ^ 20) =
      cnfReaderParse demoSatFile (2 ^ 20) ∧
    skipComments demoSatFile = demoSatFile ∧
    (∃ r, cnfReaderParse
        (dimacsHeaderLine 3 2 ++ '\n' :: (encodeClauses [[1, -2]] ++ 'c' :: " rest".toList)) 7 =
        .ok r ∧ r.addCalls = [[1, -2]] ++ [[]]) :=
  ⟨c5_comments_only_before_header.1 "c hi".toList demoSatFile (2 ^ 20)
      (by decide) (by decide),
    c5_comments_only_before_header.2.1 demoSatFile
      (fun c hc => by
        rw [show demoSatFile.head? = some 'p' from rfl] at hc
        simp only [Option.some.injEq] at hc
        rw [← hc]
        decide),
    c5_comments_only_before_header.2.2 3 2 [[1, -2]] " rest".toList 7
      (by decide) (by decide) (by decide)⟩

/-- C1: writing any clause set over variables `1..N` (nonempty clauses of
nonzero literals with magnitudes at most `N`, at least one clause, `N ≥ 1`)
with `CnfWriter` and re-parsing with the `CnfReader` yields the clause set
back — literally, in the same order. -/
theorem c1_writer_reader_roundtrip (N : Nat) (mem : Int) (C : List (List Int))
    (hN : N ≠ 0) (hC : C ≠ []) (hne : ∀ c ∈ C, c ≠ [])
    (hval : ∀ c ∈ C, ∀ l ∈ c, l ≠ 0 ∧ l.natAbs ≤ N) :
    ∃ r, cnfReaderParse ((CnfWriter.buildFrom N C).write) mem = .ok r ∧
      r.parsedClauses = C := by
  have hnz : ∀ c ∈ C, ∀ l ∈ c, l ≠ 0 := fun c hc l hl => (hval c hc l hl).1
  have hlen : C.length ≠ 0 := fun h => hC (List.length_eq_zero.mp h)
  have henc := cnfReaderParse_encoded N C.length C [] mem hN hlen hnz (Or.inl rfl)
  have hbridge : cnfReaderParse ((CnfWriter.buildFrom N C).write) mem =
      cnfReaderParse (dimacsHeaderLine N C.length ++ '\n' :: (encodeClauses C ++ [])) mem := by
    apply cnfReaderParse_skip_congr
    rw [skipComments_headered]
    have := skipComments_write N C [] hne
    simp only [List.append_nil] at this ⊢
    exact this
  refine ⟨_, hbridge.trans henc, ?_⟩
  unfold CnfReaderState.parsedClauses
  dsimp only
  rw [List.filter_append]
  have h1 : C.filter (fun c => c ≠ []) = C :=
    List.filter_eq_self.mpr (fun c hc => by simpa using hne c hc)
  rw [h1]
  simp

/-- Witness for C1 at `N = 2`, `C = [[1, -2], [2]]`. -/
theorem c1_writer_reader_roundtrip_witness :
    ∃ r, cnfReaderParse ((CnfWriter.buildFrom 2 [[1, -2], [2]]).write) 5 = .ok r ∧
      r.parsedClauses = [[1, -2], [2]] :=
  c1_writer_reader_roundtrip 2 5 [[1, -2], [2]] (by decide) (by decide)
    (by decide) (by decide)

/-- C9: when the final `0` terminator is followed only by whitespace (the
writer always emits a final newline; `ws` is any further whitespace), the
constructor performs one extra `add` with the empty clause after the last
real clause, and `solve()` runs on the solver fed exactly those calls. -/
theorem c9_trailing_whitespace_empty_add (N : Nat) (mem : Int)
    (C : List (List Int)) (ws : List Char)
    (hN : N ≠ 0) (hC : C ≠ []) (hne : ∀ c ∈ C, c ≠ [])
    (hnz : ∀ c ∈ C, ∀ l ∈ c, l ≠ 0)
    (hws : ∀ x ∈ ws, isWs x = true) :
    ∃ r, cnfReaderParse ((CnfWriter.buildFrom N C).write ++ ws) mem = .ok r ∧
      r.addCalls = C ++ [[]] ∧
      r.satisfiable = ((C ++ [[]]).foldl (fun (s : MicroSAT) c => (s.add c).2)
        (MicroSAT.create N mem)).solve := by
  have hlen : C.length ≠ 0 := fun h => hC (List.length_eq_zero.mp h)
  have hstops : stopsExtraction ws := Or.inl (List.dropWhile_eq_nil_iff.mpr
    (fun x hx => by simp [hws x hx]))
  have henc := cnfReaderParse_encoded N C.length C ws mem hN hlen hnz hstops
  have hbridge : cnfReaderParse ((CnfWriter.buildFrom N C).write ++ ws) mem =
      cnfReaderParse (dimacsHeaderLine N C.length ++ '\n' :: (encodeClauses C ++ ws)) mem := by
    apply cnfReaderParse_skip_congr
    rw [skipComments_headered]
    exact skipComments_write N C ws hne
  exact ⟨_, hbridge.trans henc, rfl, rfl⟩

/-- Witness for C9: the file for `{1}` with two extra blank characters. -/
theorem c9_trailing_whitespace_empty_add_witness :
    ∃ r, cnfReaderParse ((CnfWriter.buildFrom 1 [[1]]).write ++ [' ', '\n']) 3 = .ok r ∧
      r.addCalls = [[1]] ++ [[]] ∧
      r.satisfiable = ((([[1]] ++ [[]]) : List (List Int)).foldl
        (fun (s : MicroSAT) c => (s.add c).2) (MicroSAT.create 1 3)).solve :=
  c9_trailing_whitespace_empty_add 1 3 [[1]] [' ', '\n'] (by decide) (by decide)
    (by decide) (by decide) (by decide)

end MicroSatCpp
